import Mathlib

/-!
# A verification development of the `webapi` path-trie router

This file gives a shallow embedding, in Lean 4, of the path-trie router of
`endpoint.go` (package `webapi`): the trie (`endpoint`), registration
(`endpoint.setVal`, `endpoint.Add`), the segment classifier
(`defaultFallback`) and the backtracking search driven by the `stack`
object (`stack.search`, `stack.next`, `stack.back`), together with
theorems settling the specified properties of these operations.

Modelling conventions:

* Go's `map[string]*endpoint` is an association list with unique keys
  (`mapGet` / `mapSet`); the router never iterates over a node map, so the
  iteration order of a Go map is unobservable and the list order is
  irrelevant to every result proved here.
* Go `nil` maps are identified with empty maps: `endpoint.Search` returns
  `(nil, nil)` early when the root map is `nil`, and the stack search over
  an empty map returns the same `(nil, nil)` after a few steps, so the two
  are observationally equal.
* Heap pointers are replaced by paths from the search root: the cursor's
  `node` field is `some pos`, the list of keys leading to the node, and
  `none` models a `nil` `*endpoint` (dereferencing it is a `panic`).
  A node's `prior` field, set by `setVal` to the parent at creation and
  left `nil` by `Add`'s literal branch, is modelled by a `priorNil` flag
  on each node: moving to `prior` yields the parent position, or `none`
  when the flag is set or the position is the root.
* `stack.search` in Go is an unbounded tail recursion; the embedding is a
  step function `step` (one invocation of `stack.search`'s body) iterated
  with explicit fuel, so that nontermination is observable as `fuelOut`.
* `keyword.times` is a Go `int` that is only ever 0..4 in the program, so
  it is modelled as `Nat`.
* The search claims all concern the default classifier, so the pluggable
  `stack.fallback` (taken from `endpoint.Fallback`, defaulting to
  `defaultFallback` when `nil`) is fixed to `defaultFallback`.
-/

namespace Webapi

/-- The trie node `endpoint` of endpoint.go: an optional leaf value `val`,
the child map `nodes`, and `priorNil`, which records whether the Go
`prior` back-pointer of this node is `nil` (`true` exactly for the nodes
`Add`'s literal branch creates with `&endpoint{val: value}`; `setVal`
children carry `prior: n`, the parent). -/
inductive endpoint (α : Type) where
  | mk (val : Option α) (priorNil : Bool) (nodes : List (String × endpoint α))

/-- Leaf value of a node. -/
def endpoint.val {α : Type} : endpoint α → Option α
  | .mk v _ _ => v

/-- Whether the node's Go `prior` pointer is `nil`. -/
def endpoint.priorNil {α : Type} : endpoint α → Bool
  | .mk _ b _ => b

/-- Child map of a node. -/
def endpoint.nodes {α : Type} : endpoint α → List (String × endpoint α)
  | .mk _ _ ns => ns

/-- Lookup in the association list modelling a Go `map[string]*endpoint`. -/
def mapGet {α : Type} (k : String) : List (String × endpoint α) → Option (endpoint α)
  | [] => none
  | (k', n) :: rest => if k' = k then some n else mapGet k rest

/-- Update/insert in the association list modelling a Go map assignment. -/
def mapSet {α : Type} (k : String) (v : endpoint α) :
    List (String × endpoint α) → List (String × endpoint α)
  | [] => [(k, v)]
  | (k', n) :: rest => if k' = k then (k, v) :: rest else (k', n) :: mapSet k v rest

/-- `endpoint.setVal` of endpoint.go: descend along `path`, creating each
missing child (with a non-nil `prior`, hence `priorNil := false`); at the
end set the value, or fail if one is already set. Go mutates in place, so
children created on the way persist even when the final step fails: the
returned node reflects exactly that. (`n.nodes = {}` when `nil` is the
nil-map identification.) -/
def setVal {α : Type} : endpoint α → α → List String → endpoint α × Option String
  | .mk val pn ns, value, [] =>
      match val with
      | none => (.mk (some value) pn ns, none)
      | some v => (.mk (some v) pn ns, some "the endpoint is already existed")
  | .mk val pn ns, value, name :: rest =>
      let child := (mapGet name ns).getD (.mk none false [])
      let res := setVal child value rest
      (.mk val pn (mapSet name res.1 ns), res.2)

/-- Splitting a list of characters at every occurrence of `c`, the
semantics of Go's `strings.Split(s, "/")` for a one-character separator:
`splitOnChar c []` is `[[]]`, and each separator starts a new piece. -/
def splitOnChar (c : Char) : List Char → List (List Char)
  | [] => [[]]
  | x :: xs =>
      if x = c then [] :: splitOnChar c xs
      else
        match splitOnChar c xs with
        | h :: t => (x :: h) :: t
        | [] => [[x]]

/-- `strings.Split(path, "/")` of Go, as a list of strings. -/
def splitSlash (s : String) : List String :=
  (splitOnChar '/' s.data).map (fun l => String.mk l)

/-- Whether `needle` occurs as a contiguous substring of the character
list, the semantics of Go's `strings.Contains`. -/
def charsPrefix : List Char → List Char → Bool
  | [], _ => true
  | _ :: _, [] => false
  | a :: as, b :: bs => a = b && charsPrefix as bs

/-- See `charsPrefix`: occurrence of `n` anywhere in the list. -/
def charsInfix (n : List Char) : List Char → Bool
  | [] => charsPrefix n []
  | c :: cs => charsPrefix n (c :: cs) || charsInfix n cs

/-- Go's `strings.Contains(s, needle)`. -/
def containsSub (needle s : String) : Bool :=
  charsInfix needle.data s.data

/-- Go's `strings.ToLower`, character by character (ASCII case mapping;
every text a claim touches is ASCII). -/
def goToLower (s : String) : String :=
  String.mk (s.data.map Char.toLower)

/-- The wildcard test of `endpoint.Add`: whether the path mentions one of
the four reserved tokens (checked in the source's order). -/
def hasWildcard (path : String) : Bool :=
  containsSub "{digits}" path || containsSub "{float}" path ||
    containsSub "{string}" path || containsSub "{bool}" path

/-- `endpoint.Add` of endpoint.go. A path containing a wildcard token is
split on `/`, its first piece dropped, and registered through `setVal`
(children get `priorNil := false`); any other path is stored as a single
literal key of the root map — that node's `prior` is left `nil`
(`priorNil := true`). A literal path already present is an error and the
trie is unchanged. -/
def Add {α : Type} (n : endpoint α) (path : String) (value : α) :
    endpoint α × Option String :=
  if hasWildcard path then
    let res := setVal n value ((splitSlash path).drop 1)
    (res.1, res.2.map (fun _ => "the endpoint " ++ path ++ " is already existed"))
  else
    match mapGet path n.nodes with
    | some _ => (n, some ("the endpoint " ++ path ++ " is already existed"))
    | none => (.mk n.val n.priorNil
        (mapSet path (.mk (some value) true []) n.nodes), none)

/-- Folding `Add` over a route list (registration of several routes). -/
def addAll {α : Type} (n : endpoint α) : List (String × α) → endpoint α
  | [] => n
  | (p, v) :: rest => addAll (Add n p v).1 rest

/-- `strconv.ParseInt(value, 10, 64)` of Go: an optional sign followed by
one or more ASCII decimal digits (no underscores at base 10), with the
result required to fit in a signed 64-bit integer; `none` is a parse
error. -/
def goParseInt (s : String) : Option Int :=
  let p : Bool × List Char :=
    match s.data with
    | '+' :: rest => (false, rest)
    | '-' :: rest => (true, rest)
    | l => (false, l)
  if p.2 = [] ∨ ¬ p.2.all Char.isDigit then none
  else
    let v : Nat := p.2.foldl (fun a c => a * 10 + (c.toNat - 48)) 0
    if p.1 then
      if v ≤ 2 ^ 63 then some (-(v : Int)) else none
    else
      if v < 2 ^ 63 then some (v : Int) else none

/-- Whether `strconv.ParseFloat(value, 64)` of Go succeeds: an optional
sign followed by either a case-insensitive `inf`/`infinity`/`nan`, or a
decimal mantissa (digits with at most one dot and at least one digit)
with an optional `e`/`E` exponent (optional sign, one or more digits).
Not modelled, and unused by the program on the inputs of every claim:
hexadecimal float literals, digit-separating underscores, and the
out-of-range error for astronomic exponents. -/
def goParseFloatOK (s : String) : Bool :=
  let l : List Char :=
    match s.data with
    | '+' :: rest => rest
    | '-' :: rest => rest
    | l => l
  let low := l.map Char.toLower
  if low = "inf".data ∨ low = "infinity".data ∨ low = "nan".data then true
  else
    let mant := l.takeWhile (fun c => ¬ (c = 'e' ∨ c = 'E'))
    let rest := l.dropWhile (fun c => ¬ (c = 'e' ∨ c = 'E'))
    let mantOK := mant.all (fun c => c.isDigit || c = '.') &&
      (mant.filter (fun c => c = '.')).length ≤ 1 && mant.any Char.isDigit
    let expOK :=
      match rest with
      | [] => true
      | _ :: e =>
          let e' := match e with
            | '+' :: r => r
            | '-' :: r => r
            | r => r
          decide (e' ≠ []) && e'.all Char.isDigit
    mantOK && expOK

/-- `defaultFallback` of endpoint.go, the default segment classifier.
Attempt 1 in Go tests `isDigit == nil && float64(digit) == decimal`;
whenever `ParseInt` succeeds, `ParseFloat` succeeds on the same text and
both sides are the *same* nearest-`float64` rounding of the same integer
(an `int64` is far inside `float64` range), so the comparison is
identically true and the branch condition is exactly "parses as int64".
Attempt 2 returns `{string}`; every other attempt (including 0) falls to
the `default` case, an error with an empty key. -/
def defaultFallback (value : String) (times : Nat) : Except String String :=
  match times with
  | 1 =>
      if (goParseInt value).isSome then .ok "{digits}"
      else if goParseFloatOK value then .ok "{float}"
      else if goToLower value = "true" ∨ goToLower value = "false" then .ok "{bool}"
      else .ok ""
  | 2 => .ok "{string}"
  | _ => .error ""

/-- The search frame `keyword` of endpoint.go: the literal segment text
and the classification-attempt counter `times`. -/
structure keyword where
  text : String
  times : Nat
deriving DecidableEq, Repr

/-- The cursor `stack` of endpoint.go. `node` is the position of the
current trie node as the key path from the search root (`none` models a
`nil` pointer); `history`/`queue` are Go `list.List`s with the list head
as the Go front; `args` is pushed at the back. -/
structure stack where
  current : keyword
  node : Option (List String)
  history : List keyword
  queue : List keyword
  args : List String
deriving DecidableEq, Repr

/-- The classification loop heading `stack.search`:
`for stack.current.times++; stack.current.times > 1; stack.current.times++`
with body `key, err = fallback(text, times-1); break on err or key ≠ ""`.
`resolveLoop text times` is the loop with the counter already at `times`
(≥ 2) and the condition true: it returns the resolved key, whether the
classifier signalled exhaustion, and the final counter. -/
def resolveSteps (text : String) : Nat → Nat → String × Bool × Nat
  | 0, times => ("", true, times)
  | fuel + 1, times =>
      match defaultFallback text (times - 1) with
      | .error _ => ("", true, times)
      | .ok key =>
          if key.length > 0 then (key, false, times)
          else resolveSteps text fuel (times + 1)

/-- The loop iterates only while the classifier answers an empty key with
no error, which happens at attempt 1 alone (attempt 2 is `{string}`,
attempts ≥ 3 are errors), so a structural budget of 4 is never exhausted
(`resolveSteps_stable`) and `resolveLoop` is the unbounded Go loop. -/
def resolveLoop (text : String) (times : Nat) : String × Bool × Nat :=
  resolveSteps text 4 times

/-- `defaultFallback` answers an empty key without error only at
attempt 1. -/
theorem fallback_ok_empty {text : String} {n : Nat}
    (h : defaultFallback text n = .ok "") : n = 1 := by
  match n with
  | 0 => simp [defaultFallback] at h
  | 1 => rfl
  | 2 => simp [defaultFallback] at h
  | n + 3 => simp [defaultFallback] at h

/-- The classification loop's budget is irrelevant from 2 on: the loop
breaks within two classifier calls. -/
theorem resolveSteps_stable (text : String) (fuel times : Nat) :
    resolveSteps text (fuel + 2) times = resolveSteps text 2 times := by
  simp only [resolveSteps]
  rcases hf : defaultFallback text (times - 1) with e | key
  · rfl
  · by_cases hk : key.length > 0
    · simp [hk]
    · have hkey : key = "" := by
        cases key with
        | mk data =>
            cases data with
            | nil => rfl
            | cons c cs => simp [String.length] at hk
      subst hkey
      have h1 : times - 1 = 1 := fallback_ok_empty hf
      have h2 : times = 2 := by omega
      subst h2
      simp only [resolveSteps, defaultFallback]
      have hs : (0 : Nat) < "{string}".length := by decide
      simp [hs]

/-- Resolution of the current frame by one `stack.search` invocation: the
first `times++` always runs; if the counter is still ≤ 1 the literal text
is the key (the loop body never runs), otherwise the loop continues from
the incremented counter. -/
def resolveState (s : stack) : String × Bool × Nat :=
  if s.current.times + 1 > 1 then resolveLoop s.current.text (s.current.times + 1)
  else (s.current.text, false, s.current.times + 1)

/-- The node a position denotes, following child-map lookups from `t`. -/
def nodesAt {α : Type} : endpoint α → List String → Option (endpoint α)
  | n, [] => some n
  | n, k :: rest =>
      match mapGet k n.nodes with
      | some c => nodesAt c rest
      | none => none

/-- The Go `prior` pointer of the node at `pos`: `none` (`nil`) at the
search root and at nodes whose `priorNil` flag is set, the parent
position otherwise. -/
def upPos {α : Type} (t : endpoint α) (pos : List String) : Option (List String) :=
  match pos with
  | [] => none
  | _ =>
      match nodesAt t pos with
      | none => none
      | some n => if n.priorNil then none else some pos.dropLast

/-- Result of one `stack.search` invocation: a returned pair, a Go panic
(nil-pointer dereference or `list.Remove(nil)`), or the state recursed
on. -/
inductive stepRes (α : Type) where
  | done (val : Option α) (args : List String)
  | panic
  | cont (s : stack)
deriving DecidableEq, Repr

/-- The tail of `stack.search` after key resolution: look the key up in
the current node's map; on a hit either return (queue empty: drain `args`
keeping non-empty entries, append the current text when it was resolved
by a classifier) or `stack.next` (push the current frame to the history
front, push its captured text — empty for a literal match — to the args
back, pop the queue front into `current`, descend); on a miss recurse
unchanged. Dereferencing a `nil` node panics. -/
def childCheck {α : Type} (t : endpoint α) (s : stack) (key : String) : stepRes α :=
  match s.node with
  | none => .panic
  | some pos =>
      match nodesAt t pos with
      | none => .panic
      | some n =>
          match mapGet key n.nodes with
          | none => .cont s
          | some child =>
              match s.queue with
              | [] =>
                  .done child.val ((s.args.filter (fun a => a.length > 0)) ++
                    (if s.current.times > 1 then [s.current.text] else []))
              | q :: qrest =>
                  .cont { current := q,
                          node := some (pos ++ [key]),
                          history := s.current :: s.history,
                          queue := qrest,
                          args := s.args ++
                            [if s.current.times > 1 then s.current.text else ""] }

/-- One invocation of `stack.search` of endpoint.go: resolve the current
frame; on classifier exhaustion return `(nil, nil)` if the history is
empty, otherwise `stack.back` — move `node` to its `prior`, zero the
current frame's counter and push it to the queue front, remove the args
back (a panic if `args` is empty), pop the history *back* (the oldest
committed frame — the source pushes at the front and removes at the back)
into `current` — and fall through to the child check with the empty key
the failed classifier returned. -/
def step {α : Type} (t : endpoint α) (s : stack) : stepRes α :=
  match resolveState s with
  | (key, false, times') => childCheck t { s with current := ⟨s.current.text, times'⟩ } key
  | (_, true, _) =>
      match s.history.getLast? with
      | none => .done none []
      | some last =>
          match s.node with
          | none => .panic
          | some pos =>
              match s.args.getLast? with
              | none => .panic
              | some _ =>
                  childCheck t
                    { current := last,
                      node := upPos t pos,
                      history := s.history.dropLast,
                      queue := ⟨s.current.text, 0⟩ :: s.queue,
                      args := s.args.dropLast } ""

/-- `n` invocations of `stack.search`, stopping at a return or a panic. -/
def stepN {α : Type} (t : endpoint α) : Nat → stepRes α → stepRes α
  | 0, r => r
  | n + 1, r =>
      match r with
      | .cont s => stepN t n (step t s)
      | r => r

/-- A fuel-bounded run of `stack.search`: `fuelOut` when the recursion is
still running after `fuel` invocations. -/
inductive runRes (α : Type) where
  | done (val : Option α) (args : List String)
  | panic
  | fuelOut
deriving DecidableEq, Repr

/-- Run the stack search from state `s` for at most `fuel` invocations. -/
def searchRun {α : Type} (t : endpoint α) (fuel : Nat) (s : stack) : runRes α :=
  match stepN t fuel (.cont s) with
  | .done v a => .done v a
  | .panic => .panic
  | .cont _ => .fuelOut

/-- The initial cursor built by `endpoint.search` for the segment list
`strings.Split(path, "/")[1:]`: an empty segment list is replaced by
`[""]`, the first segment seeds `current` and the rest the queue. -/
def initState (path : String) : stack :=
  match (splitSlash path).drop 1 with
  | [] => { current := ⟨"", 0⟩, node := some [], history := [], queue := [], args := [] }
  | st :: rest =>
      { current := ⟨st, 0⟩, node := some [],
        history := [], queue := rest.map (fun x => ⟨x, 0⟩), args := [] }

/-- `endpoint.Search` of endpoint.go: the whole path as a literal key of
the root map first (returning `(obj.val, nil)` on a hit), otherwise the
stack search over the split segments. -/
def Search {α : Type} (t : endpoint α) (path : String) (fuel : Nat) : runRes α :=
  match mapGet path t.nodes with
  | some n => .done n.val []
  | none => searchRun t fuel (initState path)

/-! ## Concrete route tables used by the claims -/

/-- Routes `/a/{digits}/x ↦ 1` and `/a/{string}/y ↦ 2` (the backtracking
scenario of the spec's test properties). -/
def trieBack : endpoint Nat :=
  addAll (.mk none false []) [("/a/{digits}/x", 1), ("/a/{string}/y", 2)]

/-- Routes `/a/{digits}/x ↦ 1` and `/a/{string} ↦ 2`: `/a/{digits}` is a
valueless terminal for the lookup `/a/42`. -/
def trieUnset : endpoint Nat :=
  addAll (.mk none false []) [("/a/{digits}/x", 1), ("/a/{string}", 2)]

/-- The single route `/a/{digits}/b/{string} ↦ 5` (argument-order
scenario). -/
def trieArgs : endpoint Nat :=
  addAll (.mk none false []) [("/a/{digits}/b/{string}", 5)]

/-- Routes `/a/{digits} ↦ 1` and `/a/{string} ↦ 2`: sibling wildcards
under `a`. -/
def triePrec : endpoint Nat :=
  addAll (.mk none false []) [("/a/{digits}", 1), ("/a/{string}", 2)]

/-- Routes `/{digits}/x ↦ 1` and `/{string}/a ↦ 2`: sibling wildcards at
the root, with a value reachable only through `{string}`. -/
def triePrecCex : endpoint Nat :=
  addAll (.mk none false []) [("/{digits}/x", 1), ("/{string}/a", 2)]

/-- The single route `/{string}/a ↦ 7`. -/
def trieLoop : endpoint Nat :=
  addAll (.mk none false []) [("/{string}/a", 7)]

/-! ## C1 — backtracking scenario -/

/-- C1: with `/a/{digits}/x ↦ 1` and `/a/{string}/y ↦ 2` registered,
looking up `/a/42/y` does succeed with the `/a/{string}/y` value 2, but
the returned `capturedArgs` is `["a"]`, not the claimed `["42"]`:
`stack.next` pushes frames at the *front* of `history` while `stack.back`
removes at the *back*, so the backtrack restores the oldest frame (`"a"`,
already spent on the literal edge at depth 0) instead of the most recent
one, and the engine re-consumes `"a"` through the `{string}` wildcard —
capturing `"a"` — while the frame `"42"` is left in the history. -/
theorem c1_backtrack_captures_wrong_arg :
    Search trieBack "/a/42/y" 30 = .done (some 2) ["a"] ∧
      (["a"] : List String) ≠ ["42"] :=
  ⟨rfl, by decide⟩

/-! ## C2 — valueless terminal -/

/-- C2 counterexample: with `/a/{digits}/x ↦ 1` (so `/a/{digits}` has no
value) and `/a/{string} ↦ 2`, looking up `/a/42` returns the *unset*
value of the `{digits}` child — a no-match — and not the value 2 of
`/a/{string}`: the claimed fall-back to backtracking on an unset terminal
does not happen. -/
theorem c2_unset_terminal_cex :
    Search trieUnset "/a/42" 30 = .done none ["42"] ∧
      Search trieUnset "/a/42" 30 ≠ .done (some 2) ["42"] := by
  constructor
  · rfl
  · intro h
    rw [show Search trieUnset "/a/42" 30 = .done none ["42"] from rfl] at h
    simp at h

/-- C2 amended: when the last pending segment (empty queue) resolves
without classifier error to a key that exists as a child, one invocation
of `stack.search` returns that child's value *unconditionally* — also
when the value is unset, which the caller reads as "not found" — and
never falls back to backtracking. -/
theorem c2_unset_terminal_returned {α : Type} (t : endpoint α) (s : stack)
    (key : String) (times' : Nat) (pos : List String) (n child : endpoint α)
    (hres : resolveState s = (key, false, times'))
    (hq : s.queue = [])
    (hnode : s.node = some pos)
    (hat : nodesAt t pos = some n)
    (hchild : mapGet key n.nodes = some child) :
    step t s = .done child.val ((s.args.filter (fun a => a.length > 0)) ++
      (if times' > 1 then [s.current.text] else [])) := by
  unfold step
  rw [hres]
  unfold childCheck
  simp only [hnode, hat, hchild, hq]

/-- Witness for `c2_unset_terminal_returned`: the state one invocation
before the end of the `/a/42` lookup in `trieUnset`; the `{digits}` child
resolved there has no value, and the step returns `none` with the
captured `"42"`. -/
theorem c2_unset_terminal_returned_witness :
    step trieUnset ⟨⟨"42", 1⟩, some ["a"], [⟨"a", 1⟩], [], [""]⟩ =
      .done none ["42"] :=
  c2_unset_terminal_returned trieUnset ⟨⟨"42", 1⟩, some ["a"], [⟨"a", 1⟩], [], [""]⟩
    "{digits}" 2 ["a"] _ _ rfl rfl rfl rfl rfl

/-! ## C3 — float vs digits classification -/

/-- C3 counterexample: the default classifier sends `"42.0"` to
`{float}`, not `{digits}`: `strconv.ParseInt("42.0", 10, 64)` fails (the
text is not an integer literal), so the `{digits}` branch — whose guard
requires a successful integer parse — is never reached, and the
successful float parse yields `{float}`. -/
theorem c3_float_digits_cex :
    defaultFallback "42.0" 1 = .ok "{float}" ∧ "{float}" ≠ "{digits}" :=
  ⟨rfl, by decide⟩

/-- C3 amended: at attempt 1 the default classifier sends `"42"` to
`{digits}` and both `"42.5"` and `"42.0"` to `{float}`: the equal-value
rule applies only to texts that parse as base-10 integers, which
`"42.0"` does not. -/
theorem c3_float_digits_amended :
    defaultFallback "42" 1 = .ok "{digits}" ∧
      defaultFallback "42.5" 1 = .ok "{float}" ∧
      defaultFallback "42.0" 1 = .ok "{float}" :=
  ⟨rfl, rfl, rfl⟩

/-! ## C4 — captured-args exactness -/

/-- C4 counterexample: the successful lookup `/a/42/y` in `trieBack`
returns `capturedArgs = ["a"]`; the only wildcard edge of the matched
route `/a/{string}/y` sits at path position 1, whose segment text is
`"42"`, so the claimed exactness demands `["42"]` — instead the literal
segment `"a"` (re-consumed through `{string}` after the misdirected
backtrack) is captured and `"42"` is absent. -/
theorem c4_captured_args_cex :
    Search trieBack "/a/42/y" 30 = .done (some 2) ["a"] ∧
      "42" ∉ (["a"] : List String) :=
  ⟨rfl, by decide⟩

/-- C4 amended: for the backtrack-free lookup of the claim's example —
route `/a/{digits}/b/{string} ↦ 5`, path `/a/7/b/hello` — the captured
arguments are exactly the wildcard-resolved segment texts in
left-to-right path order, `["7", "hello"]`; the exactness guarantee does
not survive backtracking (see the counterexample). -/
theorem c4_captured_args_amended :
    Search trieArgs "/a/7/b/hello" 30 = .done (some 5) ["7", "hello"] :=
  rfl

/-! ## C6 — wildcard precedence -/

/-- C6 counterexample: in `triePrecCex` the root has both a `{digits}`
and a `{string}` child, the segment text `"7"` parses as a base-10
integer, and yet the lookup `/7/a` succeeds with value 2 — stored only
under `/{string}/a`, so the segment `"7"` was resolved to the `{string}`
child: after the `{digits}` branch dead-ends, backtracking restores the
frame `"7"` with its attempt counter preserved, and the next resolution
of `"7"` — at the same node with the `{digits}` sibling still present —
yields `{string}`. -/
theorem c6_precedence_cex :
    Search triePrecCex "/7/a" 30 = .done (some 2) ["7"] ∧
      (goParseInt "7").isSome ∧
      (mapGet "{digits}" triePrecCex.nodes).isSome ∧
      (mapGet "{string}" triePrecCex.nodes).isSome :=
  ⟨rfl, by decide, rfl, rfl⟩

/-- A text that parses as an int64 classifies as `{digits}` at
attempt 1. -/
theorem fallback_int {text : String} (h : (goParseInt text).isSome) :
    defaultFallback text 1 = .ok "{digits}" := by
  show (if (goParseInt text).isSome then (Except.ok "{digits}" : Except String String)
      else if goParseFloatOK text then .ok "{float}"
      else if goToLower text = "true" ∨ goToLower text = "false" then .ok "{bool}"
      else .ok "") = _
  rw [if_pos h]

/-- The classification loop entered at counter 2 resolves a text that
parses as an int64 to `{digits}` at once. -/
theorem resolveLoop_int {text : String} (h : (goParseInt text).isSome) :
    resolveLoop text 2 = ("{digits}", false, 2) := by
  show (match defaultFallback text 1 with
        | .error _ => ("", true, 2)
        | .ok key => if key.length > 0 then (key, false, 2) else resolveSteps text 3 3) = _
  rw [fallback_int h]
  rfl

/-- C6 amended: while a frame's attempt counter is still ≤ 1 — its
literal attempt, or its first classification — a segment text that
parses as a base-10 integer resolves to its literal text or to
`{digits}`, never to `{string}`; and looking up `/a/42` with sibling
routes `/a/{digits} ↦ 1`, `/a/{string} ↦ 2` takes the `{digits}` branch
with `capturedArgs = ["42"]`. Only a frame restored by backtracking,
whose counter is preserved beyond 1, can resolve to `{string}` (see the
counterexample). -/
theorem c6_precedence_amended :
    (∀ s : stack, s.current.times ≤ 1 → (goParseInt s.current.text).isSome →
      ((resolveState s).1 = s.current.text ∨ (resolveState s).1 = "{digits}") ∧
        (resolveState s).1 ≠ "{string}") ∧
      Search triePrec "/a/42" 30 = .done (some 1) ["42"] := by
  constructor
  · intro s hle hint
    have htext : s.current.text ≠ "{string}" := by
      intro he
      rw [he] at hint
      exact absurd hint (by decide)
    rcases Nat.lt_or_ge s.current.times 1 with h0 | h1
    · have h0' : s.current.times = 0 := by omega
      have hres : resolveState s = (s.current.text, false, 1) := by
        unfold resolveState
        rw [h0']
        rfl
      rw [hres]
      exact ⟨Or.inl rfl, htext⟩
    · have h1' : s.current.times = 1 := by omega
      have hres : resolveState s = ("{digits}", false, 2) := by
        unfold resolveState
        rw [h1']
        exact resolveLoop_int hint
      rw [hres]
      exact ⟨Or.inr rfl, by decide⟩
  · rfl

/-! ## C9 — classifier exhaustion contract -/

/-- C9: for every segment text the default classifier returns `{string}`
with no error at attempt 2, and an error — candidates exhausted — at
every attempt ≥ 3 (the `default` case of the Go switch). -/
theorem c9_classifier_exhaustion :
    (∀ s : String, defaultFallback s 2 = .ok "{string}") ∧
      ∀ (s : String) (t : Nat), 3 ≤ t → defaultFallback s t = .error "" := by
  constructor
  · intro s
    rfl
  · intro s t ht
    obtain ⟨m, hm⟩ : ∃ m, t = m + 3 := ⟨t - 3, by omega⟩
    subst hm
    rfl

/-! ## Association-list lemmas -/

/-- Reading back the key just written. -/
theorem mapGet_mapSet_self {α : Type} (k : String) (v : endpoint α)
    (l : List (String × endpoint α)) : mapGet k (mapSet k v l) = some v := by
  induction l with
  | nil => simp [mapSet, mapGet]
  | cons kv rest ih =>
      by_cases h : kv.1 = k
      · simp [mapSet, mapGet, h]
      · simp [mapSet, mapGet, h, ih]

/-- Writing one key leaves the others unread. -/
theorem mapGet_mapSet_ne {α : Type} {k k' : String} (h : k' ≠ k) (v : endpoint α)
    (l : List (String × endpoint α)) : mapGet k (mapSet k' v l) = mapGet k l := by
  induction l with
  | nil => simp [mapSet, mapGet, h]
  | cons kv rest ih =>
      by_cases hk : kv.1 = k'
      · simp [mapSet, mapGet, hk, h]
      · simp only [mapSet, mapGet, hk, if_false]
        by_cases hk2 : kv.1 = k <;> simp [mapGet, hk2, ih]

/-- Writing the same binding twice is writing it once. -/
theorem mapSet_mapSet_self {α : Type} (k : String) (v : endpoint α)
    (l : List (String × endpoint α)) : mapSet k v (mapSet k v l) = mapSet k v l := by
  induction l with
  | nil => simp [mapSet]
  | cons kv rest ih =>
      by_cases h : kv.1 = k
      · simp [mapSet, h]
      · simp [mapSet, h, ih]

/-! ## C5 — insert/lookup round-trip for literal paths -/

/-- A literal `Add` under a different key does not change what `p` maps
to at the root. -/
theorem add_lit_other {α : Type} (t : endpoint α) {q p : String} (v : α)
    (hw : hasWildcard q = false) (hne : q ≠ p) :
    mapGet p (Add t q v).1.nodes = mapGet p t.nodes := by
  unfold Add
  rw [if_neg (fun hc => Bool.false_ne_true (hw ▸ hc))]
  cases hq : mapGet q t.nodes with
  | some n => rfl
  | none => simpa [endpoint.nodes] using mapGet_mapSet_ne hne _ t.nodes

/-- A literal `Add` of an absent key stores a fresh valued node (with a
`nil` `prior`). -/
theorem add_lit_self {α : Type} (t : endpoint α) {p : String} (v : α)
    (hw : hasWildcard p = false) (habs : mapGet p t.nodes = none) :
    mapGet p (Add t p v).1.nodes = some (.mk (some v) true []) := by
  unfold Add
  rw [if_neg (fun hc => Bool.false_ne_true (hw ▸ hc)), habs]
  simpa [endpoint.nodes] using mapGet_mapSet_self p _ t.nodes

/-- Registering further literal routes under other keys preserves the
root binding of `p`. -/
theorem addAll_lit_preserve {α : Type} (ps : List (String × α)) (t : endpoint α)
    (p : String) (h : ∀ q ∈ ps, hasWildcard q.1 = false ∧ q.1 ≠ p) :
    mapGet p (addAll t ps).nodes = mapGet p t.nodes := by
  induction ps generalizing t with
  | nil => rfl
  | cons q rest ih =>
      obtain ⟨qp, qv⟩ := q
      show mapGet p (addAll (Add t qp qv).1 rest).nodes = _
      rw [ih _ (fun r hr => h r (List.mem_cons_of_mem _ hr))]
      exact add_lit_other t qv (h (qp, qv) (List.mem_cons_self _ _)).1
        (h (qp, qv) (List.mem_cons_self _ _)).2

/-- After registering pairwise-distinct, wildcard-free routes over fresh
keys, each route's key maps to its valued node at the root. -/
theorem addAll_literal_mem {α : Type} :
    ∀ (ps : List (String × α)) (t : endpoint α),
      List.Pairwise (fun a b => a.1 ≠ b.1) ps →
      (∀ q ∈ ps, hasWildcard q.1 = false) →
      (∀ q ∈ ps, mapGet q.1 t.nodes = none) →
      ∀ p v, (p, v) ∈ ps →
        mapGet p (addAll t ps).nodes = some (.mk (some v) true []) := by
  intro ps
  induction ps with
  | nil => intro t _ _ _ p v hmem; simp at hmem
  | cons q rest ih =>
      intro t hdis hwf habs p v hmem
      obtain ⟨qp, qv⟩ := q
      have hpc := List.pairwise_cons.mp hdis
      have hwq : hasWildcard qp = false := hwf (qp, qv) (List.mem_cons_self _ _)
      have habsq : mapGet qp t.nodes = none := habs (qp, qv) (List.mem_cons_self _ _)
      rcases List.mem_cons.mp hmem with hhead | htail
      · have hp : p = qp := congrArg Prod.fst hhead
        have hv : v = qv := congrArg Prod.snd hhead
        subst hp
        subst hv
        show mapGet p (addAll (Add t p v).1 rest).nodes = _
        rw [addAll_lit_preserve rest _ p
          (fun r hr => ⟨hwf r (List.mem_cons_of_mem _ hr), (hpc.1 r hr).symm⟩)]
        exact add_lit_self t v hwq habsq
      · show mapGet p (addAll (Add t qp qv).1 rest).nodes = _
        refine ih (Add t qp qv).1 hpc.2
          (fun r hr => hwf r (List.mem_cons_of_mem _ hr)) ?_ p v htail
        intro r hr
        rw [add_lit_other t qv hwq (hpc.1 r hr)]
        exact habs r (List.mem_cons_of_mem _ hr)

/-- C5: for any list of pairwise-distinct, wildcard-free (purely
literal) routes registered with `Add` into an empty trie, `Search` of
each registered path hits the literal fast path (`n.nodes[path]`) and
returns its value with an empty captured-args list, for any fuel. -/
theorem c5_literal_roundtrip {α : Type} (ps : List (String × α))
    (hdis : List.Pairwise (fun a b => a.1 ≠ b.1) ps)
    (hwf : ∀ q ∈ ps, hasWildcard q.1 = false)
    (p : String) (v : α) (hmem : (p, v) ∈ ps) (fuel : Nat) :
    Search (addAll (.mk none false []) ps) p fuel = .done (some v) [] := by
  unfold Search
  rw [addAll_literal_mem ps (endpoint.mk none false []) hdis hwf
    (fun q _ => rfl) p v hmem]
  rfl

/-- Witness for `c5_literal_roundtrip` on the routes
`[/a ↦ 1, /b/c ↦ 2]` and lookup `/b/c`. -/
theorem c5_literal_roundtrip_witness :
    Search (addAll (.mk none false []) [("/a", 1), ("/b/c", 2)]) "/b/c" 5 =
      .done (some 2) [] :=
  c5_literal_roundtrip [("/a", 1), ("/b/c", 2)] (by decide) (by decide)
    "/b/c" 2 (by decide) 5

/-! ## C7 — duplicate registration rejected atomically -/

/-- A second `setVal` along the path of a successful one fails and
returns the trie unchanged: every intermediate node already exists, and
the leaf value is set. -/
theorem setVal_dup {α : Type} :
    ∀ (segs : List String) (t : endpoint α) (v : α) (t1 : endpoint α),
      setVal t v segs = (t1, none) →
      ∀ w, setVal t1 w segs = (t1, some "the endpoint is already existed") := by
  intro segs
  induction segs with
  | nil =>
      intro t v t1 h w
      obtain ⟨val, pn, ns⟩ := t
      cases val with
      | none =>
          simp only [setVal] at h
          have ht := congrArg Prod.fst h
          simp only at ht
          rw [← ht]
          rfl
      | some u => simp [setVal] at h
  | cons name rest ih =>
      intro t v t1 h w
      obtain ⟨val, pn, ns⟩ := t
      simp only [setVal] at h
      have ht := congrArg Prod.fst h
      have he := congrArg Prod.snd h
      simp only at ht he
      rw [← ht]
      show setVal (.mk val pn (mapSet name
        (setVal ((mapGet name ns).getD (.mk none false [])) v rest).1 ns)) w
        (name :: rest) = _
      simp only [setVal, endpoint.nodes, mapGet_mapSet_self, Option.getD_some]
      rw [ih ((mapGet name ns).getD (.mk none false [])) v
        (setVal ((mapGet name ns).getD (.mk none false [])) v rest).1
        (by rw [← he]) w]
      rw [mapSet_mapSet_self]

/-- C7: if `Add` succeeds on a path `p` (literal or with wildcard
tokens), a second `Add` of the exact same path returns an
already-existed error and leaves the whole trie — in particular the
first value and every other node's value — exactly unchanged; not even
intermediate nodes are created, since they all exist already. -/
theorem c7_duplicate_rejected {α : Type} (t : endpoint α) (p : String)
    (v w : α) (t1 : endpoint α) (h : Add t p v = (t1, none)) :
    Add t1 p w = (t1, some ("the endpoint " ++ p ++ " is already existed")) := by
  unfold Add at h ⊢
  by_cases hw : hasWildcard p = true
  · rw [if_pos hw] at h ⊢
    rcases hsv : setVal t v ((splitSlash p).drop 1) with ⟨tt, e⟩
    rw [hsv] at h
    have ht := congrArg Prod.fst h
    have he := congrArg Prod.snd h
    simp only at ht he
    cases e with
    | some ee => simp at he
    | none =>
        rw [← ht]
        rw [setVal_dup _ t v tt hsv w]
        rfl
  · rw [if_neg hw] at h ⊢
    cases hg : mapGet p t.nodes with
    | some n => rw [hg] at h; simp at h
    | none =>
        rw [hg] at h
        have ht := congrArg Prod.fst h
        simp only at ht
        have hgot : mapGet p t1.nodes = some (.mk (some v) true []) := by
          rw [← ht]
          simpa [endpoint.nodes] using mapGet_mapSet_self p _ t.nodes
        rw [hgot]

/-- Witness for `c7_duplicate_rejected`: registering `/a/{digits}` twice
into an empty trie. -/
theorem c7_duplicate_rejected_witness :
    Add (Add (endpoint.mk none false []) "/a/{digits}" (1 : Nat)).1 "/a/{digits}" 2 =
      ((Add (endpoint.mk none false []) "/a/{digits}" (1 : Nat)).1,
        some ("the endpoint " ++ "/a/{digits}" ++ " is already existed")) :=
  c7_duplicate_rejected _ "/a/{digits}" 1 2 _ rfl

/-! ## C8 — the search does not always terminate -/

/-- The six cursor states the `/a/a/a` lookup in `trieLoop` cycles
through forever, in order: the front-push/back-pop mismatch on `history`
makes the engine restore the *oldest* frame on every backtrack, and with
the single route `/{string}/a` the cursor returns to the same
configuration every six invocations. -/
def loopStates : List stack :=
  [⟨⟨"a", 0⟩, some ["{string}", "a"], [⟨"a", 1⟩, ⟨"a", 3⟩], [], ["a", ""]⟩,
   ⟨⟨"a", 1⟩, some ["{string}", "a"], [⟨"a", 1⟩, ⟨"a", 3⟩], [], ["a", ""]⟩,
   ⟨⟨"a", 3⟩, some ["{string}", "a"], [⟨"a", 1⟩, ⟨"a", 3⟩], [], ["a", ""]⟩,
   ⟨⟨"a", 3⟩, some ["{string}"], [⟨"a", 1⟩], [⟨"a", 0⟩], ["a"]⟩,
   ⟨⟨"a", 1⟩, some [], [], [⟨"a", 0⟩, ⟨"a", 0⟩], []⟩,
   ⟨⟨"a", 0⟩, some ["{string}"], [⟨"a", 3⟩], [⟨"a", 0⟩], ["a"]⟩]

/-- The state of the cycle at index `k`. -/
def cyc (k : Fin 6) : stack :=
  loopStates.getD k.val ⟨⟨"", 0⟩, none, [], [], []⟩

/-- One invocation maps each cycle state to the next (indices mod 6). -/
theorem cyc_step : ∀ k : Fin 6, step trieLoop (cyc k) = .cont (cyc (k + 1)) := by
  decide

/-- From a cycle state, any number of invocations still leaves the
search running in a cycle state. -/
theorem cyc_stepN (n : Nat) :
    ∀ k : Fin 6, ∃ k', stepN trieLoop n (.cont (cyc k)) = .cont (cyc k') := by
  induction n with
  | zero => intro k; exact ⟨k, rfl⟩
  | succ m ih =>
      intro k
      show (∃ k', stepN trieLoop m (step trieLoop (cyc k)) = .cont (cyc k'))
      rw [cyc_step k]
      exact ih (k + 1)

/-- C8: the claim's totality fails — with the single (slash-prefixed)
route `/{string}/a ↦ 7`, the lookup of `/a/a/a` never returns: after
three invocations the cursor enters the six-state cycle `loopStates`
(`cyc_step`), so the Go `stack.search` recurses forever (in Go, an
ever-growing call stack), and the fuel-bounded embedding reports
`fuelOut` for every fuel. -/
theorem c8_search_diverges (fuel : Nat) :
    searchRun trieLoop fuel (initState "/a/a/a") = .fuelOut := by
  rcases fuel with _ | _ | _ | m
  · rfl
  · rfl
  · rfl
  · unfold searchRun
    have h3 : stepN trieLoop (m + 3) (.cont (initState "/a/a/a")) =
        stepN trieLoop m (.cont (cyc 0)) := rfl
    rw [h3]
    obtain ⟨k', hk⟩ := cyc_stepN m 0
    rw [hk]

/-! ## C10 — the cursor-stack invariant -/

/-- A slash-free string: the only strings that can be looked up as child
keys during the stack search (segments come from splitting on `/`,
classifier keys are wildcard tokens). -/
def noSlash (s : String) : Bool := !(s.data.contains '/')

/-- Depth-bounded well-formedness of a trie for the stack search: every
child reachable through slash-free keys was created by `setVal` (its Go
`prior` pointer is not `nil`). Tries built from slash-prefixed routes
satisfy it: `Add`'s literal branch stores the whole path — a key
containing `/` — and `setVal` children always carry their parent. -/
def goodF {α : Type} : Nat → endpoint α → Bool
  | 0, _ => false
  | d + 1, n => n.nodes.all (fun kc =>
      !(noSlash kc.1) || (!(kc.2.priorNil) && goodF d kc.2))

/-- A hit in the association list is a member. -/
theorem mapGet_mem {α : Type} {k : String} {v : endpoint α} :
    ∀ {l : List (String × endpoint α)}, mapGet k l = some v → (k, v) ∈ l := by
  intro l
  induction l with
  | nil => intro h; simp [mapGet] at h
  | cons kv rest ih =>
      intro h
      obtain ⟨k', n⟩ := kv
      by_cases he : k' = k
      · subst he
        rw [show mapGet k' ((k', n) :: rest) = some n by simp [mapGet]] at h
        injection h with h2
        subst h2
        exact List.mem_cons_self _ _
      · simp only [mapGet, if_neg he] at h
        exact List.mem_cons_of_mem _ (ih h)

/-- In a `goodF` trie, every node reached through a non-empty slash-free
position has a non-`nil` `prior`. -/
theorem good_at {α : Type} :
    ∀ (pos : List String) (d : Nat) (t n : endpoint α), goodF d t = true →
      (∀ k ∈ pos, noSlash k = true) → nodesAt t pos = some n → pos ≠ [] →
      n.priorNil = false := by
  intro pos
  induction pos with
  | nil => intro d t n _ _ _ hne; exact absurd rfl hne
  | cons k rest ih =>
      intro d t n hg hns hat _
      cases d with
      | zero => simp [goodF] at hg
      | succ d' =>
          simp only [nodesAt] at hat
          cases hm : mapGet k t.nodes with
          | none => rw [hm] at hat; simp at hat
          | some c =>
              rw [hm] at hat
              have hmem := mapGet_mem hm
              have hall := (List.all_eq_true.mp hg) (k, c) hmem
              rw [hns k (List.mem_cons_self _ _)] at hall
              simp only [Bool.not_true, Bool.false_or, Bool.and_eq_true] at hall
              cases rest with
              | nil =>
                  simp only [nodesAt, Option.some.injEq] at hat
                  subst hat
                  simpa using hall.1
              | cons r rs =>
                  exact ih d' c n hall.2
                    (fun x hx => hns x (List.mem_cons_of_mem _ hx)) hat (by simp)

/-- Extending a valid position by an existing child key. -/
theorem nodesAt_append {α : Type} :
    ∀ (pos : List String) (t n c : endpoint α) (key : String),
      nodesAt t pos = some n → mapGet key n.nodes = some c →
      nodesAt t (pos ++ [key]) = some c := by
  intro pos
  induction pos with
  | nil =>
      intro t n c key hat hm
      simp only [nodesAt, Option.some.injEq] at hat
      subst hat
      simp [nodesAt, hm]
  | cons k rest ih =>
      intro t n c key hat hm
      simp only [nodesAt] at hat ⊢
      cases hk : mapGet k t.nodes with
      | none => rw [hk] at hat; simp at hat
      | some c' =>
          rw [hk] at hat
          exact ih c' n c key hat hm

/-- A prefix of a valid position is valid. -/
theorem nodesAt_dropLast {α : Type} :
    ∀ (pos : List String) (t n : endpoint α), nodesAt t pos = some n →
      (nodesAt t pos.dropLast).isSome := by
  intro pos
  induction pos with
  | nil => intro t n _; simp [nodesAt]
  | cons k rest ih =>
      intro t n hat
      simp only [nodesAt] at hat
      cases hk : mapGet k t.nodes with
      | none => rw [hk] at hat; simp at hat
      | some c =>
          rw [hk] at hat
          cases rest with
          | nil => simp [nodesAt]
          | cons r rs =>
              have := ih c n hat
              simpa [List.dropLast, nodesAt, hk] using this

/-- Every key the classifier can answer is slash-free. -/
theorem fallback_noSlash {text k : String} {n : Nat}
    (h : defaultFallback text n = .ok k) : noSlash k = true := by
  match n with
  | 0 => simp [defaultFallback] at h
  | 1 =>
      simp only [defaultFallback] at h
      split_ifs at h <;> (injection h with h; subst h; decide)
  | 2 =>
      simp only [defaultFallback] at h
      injection h with h
      subst h
      decide
  | m + 3 => simp [defaultFallback] at h

/-- Keys resolved by the classification loop are slash-free. -/
theorem resolveSteps_noSlash (text : String) :
    ∀ (fuel times : Nat), (resolveSteps text fuel times).2.1 = false →
      noSlash (resolveSteps text fuel times).1 = true := by
  intro fuel
  induction fuel with
  | zero => intro times h; simp [resolveSteps] at h
  | succ f ih =>
      intro times h
      simp only [resolveSteps] at h ⊢
      cases hf : defaultFallback text (times - 1) with
      | error e =>
          rw [hf] at h
          simp at h
      | ok key =>
          simp only [hf] at h
          by_cases hk : key.length > 0
          · show noSlash (if key.length > 0 then (key, false, times)
                else resolveSteps text f (times + 1)).1 = true
            rw [if_pos hk]
            exact fallback_noSlash hf
          · rw [if_neg hk] at h
            show noSlash (if key.length > 0 then (key, false, times)
                else resolveSteps text f (times + 1)).1 = true
            rw [if_neg hk]
            exact ih (times + 1) h

/-- The key one invocation resolves is slash-free whenever the frame's
text is. -/
theorem resolveState_noSlash {s : stack} (h : noSlash s.current.text = true)
    (hres : (resolveState s).2.1 = false) : noSlash (resolveState s).1 = true := by
  unfold resolveState at hres ⊢
  by_cases ht : s.current.times + 1 > 1
  · rw [if_pos ht] at hres ⊢
    exact resolveSteps_noSlash s.current.text 4 (s.current.times + 1) hres
  · rw [if_neg ht]
    exact h

/-- The invariant of C10: the cursor points at a valid slash-free
position of the trie, `history` and `args` have equal length and that
common length is the cursor's depth below the search root (the number of
`stack.next` calls minus the number of `stack.back` calls), and every
frame text in flight is slash-free. -/
def Inv {α : Type} (t : endpoint α) (s : stack) : Prop :=
  ∃ pos, s.node = some pos ∧ (∀ k ∈ pos, noSlash k = true) ∧
    (nodesAt t pos).isSome ∧
    s.history.length = s.args.length ∧ pos.length = s.history.length ∧
    noSlash s.current.text = true ∧
    (∀ f ∈ s.history, noSlash f.text = true) ∧
    (∀ f ∈ s.queue, noSlash f.text = true)

/-- `childCheck` on a constructor-shaped cursor, reduced one match. -/
theorem childCheck_eq {α : Type} (t : endpoint α) (cur : keyword)
    (pos : List String) (hist qu : List keyword) (ar : List String)
    (key : String) :
    childCheck t ⟨cur, some pos, hist, qu, ar⟩ key =
      (match nodesAt t pos with
       | none => .panic
       | some n =>
         match mapGet key n.nodes with
         | none => .cont ⟨cur, some pos, hist, qu, ar⟩
         | some child =>
           match qu with
           | [] => .done child.val ((ar.filter (fun a => a.length > 0)) ++
               (if cur.times > 1 then [cur.text] else []))
           | q :: qrest => .cont ⟨q, some (pos ++ [key]), cur :: hist, qrest,
               ar ++ [if cur.times > 1 then cur.text else ""]⟩) := rfl

/-- `step` on a constructor-shaped cursor, with the `node` matches
reduced. -/
theorem step_eq {α : Type} (t : endpoint α) (cur : keyword)
    (pos : List String) (hist qu : List keyword) (ar : List String) :
    step t ⟨cur, some pos, hist, qu, ar⟩ =
      (match resolveState ⟨cur, some pos, hist, qu, ar⟩ with
       | (key, false, times') =>
           childCheck t ⟨⟨cur.text, times'⟩, some pos, hist, qu, ar⟩ key
       | (_, true, _) =>
         match hist.getLast? with
         | none => .done none []
         | some last =>
           match ar.getLast? with
           | none => .panic
           | some _ =>
               childCheck t ⟨last, upPos t pos, hist.dropLast,
                 ⟨cur.text, 0⟩ :: qu, ar.dropLast⟩ "") := rfl

/-- `childCheck` from an invariant state with a slash-free key neither
panics nor leaves the invariant. -/
theorem childCheck_good {α : Type} {t : endpoint α} {cur : keyword}
    {pos : List String} {hist qu : List keyword} {ar : List String} {key : String}
    (hs : Inv t ⟨cur, some pos, hist, qu, ar⟩) (hk : noSlash key = true) :
    childCheck t ⟨cur, some pos, hist, qu, ar⟩ key ≠ .panic ∧
      ∀ s', childCheck t ⟨cur, some pos, hist, qu, ar⟩ key = .cont s' →
        Inv t s' := by
  obtain ⟨pos', hnode, hposns, hat, hlen, hdepth, hcur, hhist, hqueue⟩ := hs
  have hpos : pos' = pos := by injection hnode with h; exact h.symm
  subst hpos
  rw [childCheck_eq]
  split
  · rename_i hsome
    rw [hsome] at hat
    simp at hat
  · rename_i n hsome
    split
    · refine ⟨by simp, fun s' hs' => ?_⟩
      injection hs' with hs'
      subst hs'
      exact ⟨pos', rfl, hposns, hat, hlen, hdepth, hcur, hhist, hqueue⟩
    · rename_i child hm
      split
      · exact ⟨by simp, fun s' hs' => by simp at hs'⟩
      · rename_i q qrest
        refine ⟨by simp, fun s' hs' => ?_⟩
        injection hs' with hs'
        subst hs'
        refine ⟨pos' ++ [key], rfl, ?_, ?_, ?_, ?_, ?_, ?_, ?_⟩
        · intro x hx
          rcases List.mem_append.mp hx with h | h
          · exact hposns x h
          · simp only [List.mem_singleton] at h
            subst h
            exact hk
        · rw [nodesAt_append pos' t n child key hsome hm]
          rfl
        · simpa using hlen
        · simpa using hdepth
        · exact hqueue q (List.mem_cons_self _ _)
        · intro f hf
          rcases List.mem_cons.mp hf with h | h
          · subst h
            exact hcur
          · exact hhist f h
        · intro f hf
          exact hqueue f (List.mem_cons_of_mem _ hf)

/-- One invocation of `stack.search` from an invariant state of a
`goodF` trie neither panics nor breaks the invariant: in particular
`stack.back` always finds a non-`nil` parent to restore and a non-empty
`args` list to pop. -/
theorem step_preserves {α : Type} {t : endpoint α} {d : Nat}
    (hg : goodF d t = true) {s : stack} (hs : Inv t s) :
    step t s ≠ .panic ∧ ∀ s', step t s = .cont s' → Inv t s' := by
  obtain ⟨cur, nodeF, hist, qu, ar⟩ := s
  obtain ⟨pos, hnode, hposns, hat, hlen0, hdepth0, hcur0, hhist0, hqueue0⟩ := hs
  have hnode' : nodeF = some pos := hnode
  subst hnode'
  have hlen : hist.length = ar.length := hlen0
  have hdepth : pos.length = hist.length := hdepth0
  have hcur : noSlash cur.text = true := hcur0
  have hhist : ∀ f ∈ hist, noSlash f.text = true := hhist0
  have hqueue : ∀ f ∈ qu, noSlash f.text = true := hqueue0
  clear hlen0 hdepth0 hcur0 hhist0 hqueue0
  rw [step_eq]
  split
  · rename_i key times' hres
    have hs1 : Inv t ⟨⟨cur.text, times'⟩, some pos, hist, qu, ar⟩ :=
      ⟨pos, rfl, hposns, hat, hlen, hdepth, hcur, hhist, hqueue⟩
    have hkey : noSlash key = true := by
      have hr2 : (resolveState (⟨cur, some pos, hist, qu, ar⟩ : stack)).2.1 = false := by
        rw [hres]
      have hns := resolveState_noSlash (s := ⟨cur, some pos, hist, qu, ar⟩) hcur hr2
      rwa [hres] at hns
    exact childCheck_good hs1 hkey
  · rename_i key2 times2 hres
    split
    · exact ⟨by simp, fun s' hs' => by simp at hs'⟩
    · rename_i last hlast
      have hhne : hist ≠ [] := by
        intro he
        rw [he] at hlast
        simp at hlast
      have hdge : 1 ≤ hist.length := by
        cases hh : hist with
        | nil => exact absurd hh hhne
        | cons a l => simp [hh]
      have hane : ar ≠ [] := by
        intro he
        rw [he] at hlen
        simp only [List.length_nil] at hlen
        omega
      split
      · rename_i halast
        rw [List.getLast?_eq_none_iff] at halast
        exact absurd halast hane
      · rename_i arglast halast
        have hposne : pos ≠ [] := by
          intro he
          rw [he] at hdepth
          simp at hdepth
          omega
        obtain ⟨n, hsome⟩ := Option.isSome_iff_exists.mp hat
        have hup : upPos t pos = some pos.dropLast := by
          cases pos with
          | nil => exact absurd rfl hposne
          | cons a l =>
              show (match nodesAt t (a :: l) with
                    | none => none
                    | some m => if m.priorNil then none
                        else some ((a :: l).dropLast)) = some ((a :: l).dropLast)
              simp only [hsome]
              rw [good_at (a :: l) d t n hg hposns hsome (by simp)]
              simp
        have hs2 : Inv t ⟨last, some pos.dropLast, hist.dropLast,
            ⟨cur.text, 0⟩ :: qu, ar.dropLast⟩ := by
          refine ⟨pos.dropLast, rfl, ?_, ?_, ?_, ?_, ?_, ?_, ?_⟩
          · intro x hx
            exact hposns x (List.Sublist.mem hx (List.dropLast_sublist pos))
          · exact nodesAt_dropLast pos t n hsome
          · simp only [List.length_dropLast]
            omega
          · simp only [List.length_dropLast]
            omega
          · have hml : last ∈ hist := by
              obtain ⟨hne', he'⟩ :=
                List.mem_getLast?_eq_getLast (by rw [hlast]; exact rfl)
              subst he'
              exact List.getLast_mem hne'
            exact hhist last hml
          · intro f hf
            exact hhist f (List.Sublist.mem hf (List.dropLast_sublist hist))
          · intro f hf
            rcases List.mem_cons.mp hf with h | h
            · subst h
              exact hcur
            · exact hqueue f h
        rw [hup]
        exact childCheck_good hs2 (by decide)


/-- Pieces produced by `splitOnChar` never contain the separator. -/
theorem splitOnChar_not_mem (c : Char) :
    ∀ (l : List Char), ∀ p ∈ splitOnChar c l, c ∉ p := by
  intro l
  induction l with
  | nil =>
      intro p hp
      simp only [splitOnChar, List.mem_singleton] at hp
      subst hp
      simp
  | cons x xs ih =>
      intro p hp
      simp only [splitOnChar] at hp
      by_cases hx : x = c
      · rw [if_pos hx] at hp
        rcases List.mem_cons.mp hp with h | h
        · subst h; simp
        · exact ih p h
      · rw [if_neg hx] at hp
        cases hsp : splitOnChar c xs with
        | nil =>
            rw [hsp] at hp
            simp only [List.mem_singleton] at hp
            subst hp
            simp only [List.mem_singleton]
            intro h
            exact hx h.symm
        | cons hd tl =>
            rw [hsp] at hp
            rcases List.mem_cons.mp hp with h | h
            · subst h
              intro hm
              rcases List.mem_cons.mp hm with h' | h'
              · exact hx h'.symm
              · exact ih hd (hsp ▸ List.mem_cons_self _ _) h'
            · exact ih p (hsp ▸ List.mem_cons_of_mem _ h)

/-- Pieces of `strings.Split(s, "/")` are slash-free. -/
theorem splitSlash_noSlash (s : String) : ∀ p ∈ splitSlash s, noSlash p = true := by
  intro p hp
  obtain ⟨l, hl, he⟩ := List.mem_map.mp hp
  subst he
  have hnm := splitOnChar_not_mem '/' s.data l hl
  simp only [noSlash, Bool.not_eq_true']
  show (String.mk l).data.contains '/' = false
  simpa using hnm

/-- The initial cursor satisfies the invariant. -/
theorem initState_inv {α : Type} (t : endpoint α) (path : String) :
    Inv t (initState path) := by
  unfold initState
  cases hsp : (splitSlash path).drop 1 with
  | nil =>
      exact ⟨[], rfl, by simp, by simp [nodesAt], rfl, rfl, by decide,
        by simp, by simp⟩
  | cons st rest =>
      have hmem : ∀ x ∈ st :: rest, noSlash x = true := by
        intro x hx
        refine splitSlash_noSlash path x ?_
        have hxd : x ∈ (splitSlash path).drop 1 := hsp ▸ hx
        exact List.mem_of_mem_drop hxd
      refine ⟨[], rfl, by simp, by simp [nodesAt], rfl, rfl, ?_, by simp, ?_⟩
      · exact hmem st (List.mem_cons_self _ _)
      · intro f hf
        obtain ⟨x, hx, he⟩ := List.mem_map.mp hf
        subst he
        exact hmem x (List.mem_cons_of_mem _ hx)

/-- `stepN` fixes returned and panicked results. -/
theorem stepN_fix {α : Type} (t : endpoint α) (n : Nat) (r : stepRes α)
    (h : ∀ s, r ≠ .cont s) : stepN t n r = r := by
  cases n with
  | zero => rfl
  | succ m =>
      cases r with
      | cont s => exact absurd rfl (h s)
      | done v a => rfl
      | panic => rfl

/-- Iterated invocations from an invariant state never panic, and every
still-running state keeps the invariant. -/
theorem stepN_preserves {α : Type} {t : endpoint α} {d : Nat}
    (hg : goodF d t = true) :
    ∀ (n : Nat) (s : stack), Inv t s →
      stepN t n (.cont s) ≠ .panic ∧
        ∀ s', stepN t n (.cont s) = .cont s' → Inv t s' := by
  intro n
  induction n with
  | zero =>
      intro s hs
      refine ⟨by simp [stepN], fun s' hs' => ?_⟩
      simp only [stepN] at hs'
      injection hs' with hs'
      subst hs'
      exact hs
  | succ m ih =>
      intro s hs
      show stepN t m (step t s) ≠ .panic ∧
        ∀ s', stepN t m (step t s) = .cont s' → Inv t s'
      obtain ⟨hnp, hcont⟩ := step_preserves hg hs
      cases hstep : step t s with
      | cont s2 => exact ih s2 (hcont s2 hstep)
      | done v a =>
          rw [stepN_fix t m _ (by intro s'; simp)]
          exact ⟨by simp, fun s' hs' => by simp at hs'⟩
      | panic => exact absurd hstep hnp

/-- Whether a path string starts with `/` (the claim's assumption on
registered paths). -/
def startsSlash (s : String) : Bool :=
  match s.data with
  | [] => false
  | c :: _ => c == '/'

/-- A path starting with `/` is not slash-free. -/
theorem startsSlash_not_noSlash {p : String} (h : startsSlash p = true) :
    noSlash p = false := by
  unfold startsSlash at h
  unfold noSlash
  cases hd : p.data with
  | nil => rw [hd] at h; simp at h
  | cons c rest =>
      rw [hd] at h
      have hc : c = '/' := by simpa using h
      subst hc
      simp [List.contains_cons]

/-- `goodF` survives one more unit of depth budget. -/
theorem goodF_mono {α : Type} :
    ∀ (d : Nat) (t : endpoint α), goodF d t = true → goodF (d + 1) t = true := by
  intro d
  induction d with
  | zero => intro t h; simp [goodF] at h
  | succ d' ih =>
      intro t h
      simp only [goodF, List.all_eq_true] at h ⊢
      intro kc hkc
      have hx := h kc hkc
      cases hns : noSlash kc.1 with
      | false => simp
      | true =>
          simp only [hns, Bool.not_true, Bool.false_or, Bool.and_eq_true] at hx
          simp only [Bool.not_true, Bool.false_or, Bool.and_eq_true]
          exact ⟨hx.1, ih kc.2 hx.2⟩

/-- `goodF` at any larger budget. -/
theorem goodF_le {α : Type} (d d' : Nat) (t : endpoint α) (h : goodF d t = true)
    (hle : d ≤ d') : goodF d' t = true := by
  induction d' with
  | zero =>
      have hz : d = 0 := by omega
      subst hz
      exact h
  | succ m ih =>
      rcases Nat.lt_or_ge d (m + 1) with hlt | hge
      · exact goodF_mono m t (ih (by omega))
      · have hz : d = m + 1 := by omega
        subst hz
        exact h

/-- Members of an updated association list. -/
theorem mem_mapSet {α : Type} {k name : String} {c c' : endpoint α} :
    ∀ {l : List (String × endpoint α)}, (k, c) ∈ mapSet name c' l →
      (k = name ∧ c = c') ∨ (k, c) ∈ l := by
  intro l
  induction l with
  | nil =>
      intro h
      simp only [mapSet, List.mem_singleton] at h
      exact Or.inl ⟨congrArg Prod.fst h, congrArg Prod.snd h⟩
  | cons kv rest ih =>
      intro h
      obtain ⟨k0, c0⟩ := kv
      by_cases he : k0 = name
      · subst he
        rw [show mapSet k0 c' ((k0, c0) :: rest) = (k0, c') :: rest by
          simp [mapSet]] at h
        rcases List.mem_cons.mp h with h | h
        · exact Or.inl ⟨congrArg Prod.fst h, congrArg Prod.snd h⟩
        · exact Or.inr (List.mem_cons_of_mem _ h)
      · rw [show mapSet name c' ((k0, c0) :: rest) = (k0, c0) :: mapSet name c' rest by
          simp [mapSet, he]] at h
        rcases List.mem_cons.mp h with h | h
        · rw [h]
          exact Or.inr (List.mem_cons_self _ _)
        · rcases ih h with h' | h'
          · exact Or.inl h'
          · exact Or.inr (List.mem_cons_of_mem _ h')

/-- `setVal` keeps the root's `prior` flag. -/
theorem setVal_priorNil {α : Type} :
    ∀ (segs : List String) (t : endpoint α) (v : α),
      (setVal t v segs).1.priorNil = t.priorNil := by
  intro segs t v
  obtain ⟨val, pn, ns⟩ := t
  cases segs with
  | nil => cases val <;> rfl
  | cons a l => rfl

/-- `goodF` depends only on the child map. -/
theorem goodF_nodes {α : Type} (d : Nat) (t t' : endpoint α)
    (h : t.nodes = t'.nodes) : goodF d t = goodF d t' := by
  cases d with
  | zero => rfl
  | succ m => simp only [goodF, h]

/-- `setVal` with slash-free or slash-full segments alike preserves
`goodF`, spending one budget unit per segment: created children carry
`priorNil := false` and existing ones keep their flag. -/
theorem setVal_goodF {α : Type} :
    ∀ (segs : List String) (t : endpoint α) (v : α) (d : Nat),
      goodF d t = true → goodF (d + segs.length) (setVal t v segs).1 = true := by
  intro segs
  induction segs with
  | nil =>
      intro t v d h
      obtain ⟨val, pn, ns⟩ := t
      cases val with
      | none =>
          show goodF (d + 0) (endpoint.mk (some v) pn ns) = true
          rw [Nat.add_zero, goodF_nodes d (.mk (some v) pn ns) (.mk none pn ns) rfl]
          exact h
      | some u =>
          show goodF (d + 0) (endpoint.mk (some u) pn ns) = true
          rw [Nat.add_zero]
          exact h
  | cons name rest ih =>
      intro t v d h
      obtain ⟨val, pn, ns⟩ := t
      cases d with
      | zero => simp [goodF] at h
      | succ d' =>
      simp only [goodF, List.all_eq_true, endpoint.nodes] at h
      show goodF (d' + 1 + (name :: rest).length)
        (endpoint.mk val pn (mapSet name
          (setVal ((mapGet name ns).getD (.mk none false [])) v rest).1 ns)) = true
      have harr : d' + 1 + (name :: rest).length = (d' + 1 + rest.length) + 1 := by
        simp only [List.length_cons]
        omega
      rw [harr]
      simp only [goodF, List.all_eq_true, endpoint.nodes]
      intro kc hkc
      obtain ⟨k0, c0⟩ := kc
      rcases mem_mapSet hkc with ⟨hk, hc⟩ | hmem
      · subst hk
        subst hc
        cases hns : noSlash k0 with
        | false => simp
        | true =>
            simp only [Bool.not_true, Bool.false_or, Bool.and_eq_true]
            constructor
            · rw [setVal_priorNil]
              cases hmg : mapGet k0 ns with
              | none => rfl
              | some ch =>
                  have hx := h (k0, ch) (mapGet_mem hmg)
                  simp only [hns, Bool.not_true, Bool.false_or,
                    Bool.and_eq_true] at hx
                  exact hx.1
            · cases hmg : mapGet k0 ns with
              | none =>
                  have hbase : goodF 1 (endpoint.mk (none : Option α) false []) = true := rfl
                  have hrec := ih (endpoint.mk none false []) v 1 hbase
                  exact goodF_le (1 + rest.length) _ _ hrec (by omega)
              | some ch =>
                  have hx := h (k0, ch) (mapGet_mem hmg)
                  simp only [hns, Bool.not_true, Bool.false_or,
                    Bool.and_eq_true] at hx
                  have hrec := ih ch v d' hx.2
                  exact goodF_le (d' + rest.length) _ _ hrec (by omega)
      · have hx := h (k0, c0) hmem
        cases hns : noSlash k0 with
        | false => simp
        | true =>
            simp only [hns, Bool.not_true, Bool.false_or, Bool.and_eq_true] at hx
            simp only [Bool.not_true, Bool.false_or, Bool.and_eq_true]
            exact ⟨hx.1, goodF_le d' _ _ hx.2 (by omega)⟩

/-- `Add` of a slash-prefixed path preserves `goodF`: the wildcard
branch goes through `setVal`, and the literal branch stores the whole
path — a key containing `/`, exempt from the slash-free condition. -/
theorem Add_goodF {α : Type} (t : endpoint α) (p : String) (v : α) (d : Nat)
    (h : goodF d t = true) (hp : startsSlash p = true) :
    goodF (d + (splitSlash p).length) (Add t p v).1 = true := by
  unfold Add
  by_cases hw : hasWildcard p = true
  · rw [if_pos hw]
    have hsv := setVal_goodF ((splitSlash p).drop 1) t v d h
    refine goodF_le _ _ _ hsv ?_
    simp only [List.length_drop]
    omega
  · rw [if_neg hw]
    cases hg : mapGet p t.nodes with
    | some n => exact goodF_le d _ _ h (by omega)
    | none =>
        cases d with
        | zero => simp [goodF] at h
        | succ d' =>
        refine goodF_le (d' + 1) _ _ ?_ (by omega)
        simp only [goodF, List.all_eq_true, endpoint.nodes] at h ⊢
        intro kc hkc
        obtain ⟨k0, c0⟩ := kc
        rcases mem_mapSet hkc with ⟨hk, hc⟩ | hmem
        · subst hk
          rw [startsSlash_not_noSlash hp]
          simp
        · exact h (k0, c0) hmem

/-- Registering any list of slash-prefixed routes yields a `goodF`
trie. -/
theorem addAll_goodF {α : Type} :
    ∀ (routes : List (String × α)) (t : endpoint α) (d : Nat),
      goodF d t = true → (∀ q ∈ routes, startsSlash q.1 = true) →
      ∃ d', goodF d' (addAll t routes) = true := by
  intro routes
  induction routes with
  | nil => intro t d h _; exact ⟨d, h⟩
  | cons q rest ih =>
      intro t d h hsl
      obtain ⟨qp, qv⟩ := q
      exact ih (Add t qp qv).1 (d + (splitSlash qp).length)
        (Add_goodF t qp qv d h (hsl (qp, qv) (List.mem_cons_self _ _)))
        (fun r hr => hsl r (List.mem_cons_of_mem _ hr))

/-- The invariant and panic-freedom over any `goodF` trie. -/
theorem goodF_search_invariant {α : Type} (t : endpoint α) (d : Nat)
    (hg : goodF d t = true) (path : String) (n : Nat) :
    stepN t n (.cont (initState path)) ≠ .panic ∧
      ∀ s, stepN t n (.cont (initState path)) = .cont s →
        s.history.length = s.args.length ∧
          ∃ pos, s.node = some pos ∧ pos.length = s.history.length := by
  obtain ⟨hnp, hcont⟩ := stepN_preserves hg n (initState path) (initState_inv t path)
  refine ⟨hnp, fun s hs => ?_⟩
  obtain ⟨pos, hnode, -, -, hlen, hdepth, -, -, -⟩ := hcont s hs
  exact ⟨hlen, pos, hnode, hdepth⟩

/-- C10: over a trie built by registering any routes whose paths all
start with `/` (so every node the segment search can step into was
created by `setVal` and carries a non-`nil` `prior`: `Add`'s literal
branch stores whole paths, which then contain `/` and are unreachable
from slash-free segment keys), the stack search of any path never
panics, and at every still-running state the history and args lists have
equal length, which is also the cursor's depth below the search root
(the length of its position — the number of `stack.next` calls minus the
number of `stack.back` calls); consequently `stack.back` — guarded by a
non-empty history — always finds a non-`nil` parent to restore and a
non-empty args list to pop. -/
theorem c10_cursor_invariant {α : Type} (routes : List (String × α))
    (hsl : ∀ q ∈ routes, startsSlash q.1 = true) (path : String) (n : Nat) :
    stepN (addAll (.mk none false []) routes) n (.cont (initState path)) ≠ .panic ∧
      ∀ s, stepN (addAll (.mk none false []) routes) n
          (.cont (initState path)) = .cont s →
        s.history.length = s.args.length ∧
          ∃ pos, s.node = some pos ∧ pos.length = s.history.length := by
  obtain ⟨d, hg⟩ := addAll_goodF routes (.mk none false []) 1 rfl hsl
  exact goodF_search_invariant (addAll (.mk none false []) routes) d hg path n

/-- Witness for `c10_cursor_invariant`: the slash-prefixed route list
`[/{string}/a ↦ 7]` and five invocations on the lookup `/a/b`. -/
theorem c10_cursor_invariant_witness :
    stepN (addAll (.mk none false []) [("/{string}/a", (7 : Nat))]) 5
        (.cont (initState "/a/b")) ≠ .panic ∧
      ∀ s, stepN (addAll (.mk none false []) [("/{string}/a", (7 : Nat))]) 5
          (.cont (initState "/a/b")) = .cont s →
        s.history.length = s.args.length ∧
          ∃ pos, s.node = some pos ∧ pos.length = s.history.length :=
  c10_cursor_invariant [("/{string}/a", (7 : Nat))] (by decide) "/a/b" 5

end Webapi
